import Mathlib

/-!
Shallow embedding of the dedup core shared by
`src/preprocess/gdelt_dedup.cpp` and `src/preprocess/jsonl_dedup.cpp`
(the two files contain byte-for-byte identical normalization, key
derivation, and per-line dedup-loop code; the embedding below covers
both).

Byte strings are modelled as `List Nat` (one entry per byte).  A parsed
JSON record is modelled by the four fields the code inspects
(`text`, `title`, `url`, `id`); a field is `none` exactly when the C++
side sees "absent or not a string" (the code guards every access with
`it != record.end() && it->is_string()`, so absent and non-string are
indistinguishable there).  An input line carries its raw bytes plus the
outcome of `json::parse` (`none` = the parser threw).  The engine state
mirrors the `Stats` counters, the `seen_keys` set (as a duplicate-free
list) and the bytes written to the output stream.
-/

/-- The six bytes for which `std::isspace` (C locale, as the programs run)
returns nonzero: TAB, LF, VT, FF, CR, SPACE. -/
def isSpace (c : Nat) : Prop :=
  c = 9 ∨ c = 10 ∨ c = 11 ∨ c = 12 ∨ c = 13 ∨ c = 32

instance (c : Nat) : Decidable (isSpace c) := by
  unfold isSpace
  exact inferInstance

/-- `std::tolower` in the C locale: maps `A`..`Z` (65..90) to `a`..`z`,
leaves every other byte unchanged. -/
def toLowerA (c : Nat) : Nat :=
  if 65 ≤ c ∧ c ≤ 90 then c + 32 else c

/-- The scanning loop of `normalize_ascii_lower` (gdelt_dedup.cpp:28-39):
collapse each whitespace run to one `' '`, lowercase the rest.  `inSp`
is the `in_space` flag. -/
def normCore (inSp : Bool) : List Nat → List Nat
  | [] => []
  | c :: rest =>
    if isSpace c then
      if inSp then normCore true rest else 32 :: normCore true rest
    else
      toLowerA c :: normCore false rest

/-- `while (!l.empty() && l.front() == x) l.erase(l.begin())`. -/
def dropLeading (x : Nat) : List Nat → List Nat
  | [] => []
  | c :: rest => if c = x then dropLeading x rest else c :: rest

/-- `normalize_ascii_lower` (gdelt_dedup.cpp:23-49, jsonl_dedup.cpp:28-54):
collapse whitespace runs, lowercase, then trim leading and trailing
spaces.  Trailing trim (`while back == ' ' pop_back`) is expressed as a
leading trim of the reversal. -/
def normalize_ascii_lower (s : List Nat) : List Nat :=
  (dropLeading 32 (dropLeading 32 (normCore false s)).reverse).reverse

/-- `normalize_urlish` (gdelt_dedup.cpp:51-63): lowercase every byte,
then strip all trailing `'/'` (47) bytes. -/
def normalize_urlish (url : List Nat) : List Nat :=
  (dropLeading 47 (url.map toLowerA).reverse).reverse

/-- A parsed record as the key deriver sees it: each field is `some`
bytes exactly when present with a JSON string value. -/
structure Record where
  text : Option (List Nat)
  title : Option (List Nat)
  url : Option (List Nat)
  id : Option (List Nat)
deriving DecidableEq

/-- Bytes of a string literal (ASCII literals only are used below). -/
def bytes (s : String) : List Nat := s.data.map Char.toNat

/-- `text_norm` local of `build_key` (gdelt_dedup.cpp:66-69). -/
def text_norm_of (r : Record) : List Nat :=
  match r.text with
  | some s => normalize_ascii_lower s
  | none => []

/-- `title_norm` local of `build_key` (gdelt_dedup.cpp:71-74). -/
def title_norm_of (r : Record) : List Nat :=
  match r.title with
  | some s => normalize_ascii_lower s
  | none => []

/-- `url_norm` local of `build_key` (gdelt_dedup.cpp:76-79). -/
def url_norm_of (r : Record) : List Nat :=
  match r.url with
  | some s => normalize_urlish s
  | none => []

/-- `build_key` (gdelt_dedup.cpp:65-106, jsonl_dedup.cpp:70-111).
Note the `id` branch mirrors the source exactly: it checks only
presence-as-string, not non-emptiness. -/
def build_key (r : Record) : List Nat :=
  let text_norm := text_norm_of r
  let title_norm := title_norm_of r
  let url_norm := url_norm_of r
  if text_norm ≠ [] then
    if text_norm.length < 80 ∧ url_norm ≠ [] then
      text_norm ++ bytes "|url|" ++ url_norm
    else
      text_norm
  else if title_norm ≠ [] then
    if url_norm ≠ [] then title_norm ++ bytes "|url|" ++ url_norm
    else title_norm
  else if url_norm ≠ [] then
    bytes "url|" ++ url_norm
  else
    match r.id with
    | some s => bytes "id|" ++ s
    | none => []

/-- Fuel-driven decimal digit emitter; with fuel `≥ n` it produces the
usual big-endian decimal digits (as ASCII bytes) of `n`. -/
def decAux : Nat → Nat → List Nat
  | 0, _ => []
  | _ + 1, 0 => []
  | f + 1, n + 1 => decAux f ((n + 1) / 10) ++ [(n + 1) % 10 + 48]

/-- `std::to_string` on a nonnegative integer: ASCII decimal bytes. -/
def natDec (n : Nat) : List Nat :=
  if n = 0 then [48] else decAux n n

/-- The key actually inserted for a parsed record at 1-based line number
`lineNo`: `build_key`, or `"line|" + to_string(lineNo)` when `build_key`
returned the empty string (gdelt_dedup.cpp:159-162). -/
def keyFor (r : Record) (lineNo : Nat) : List Nat :=
  let key := build_key r
  if key = [] then bytes "line|" ++ natDec lineNo else key

/-- The `Stats` struct (gdelt_dedup.cpp:14-21). -/
structure Stats where
  total : Nat
  parsed : Nat
  written : Nat
  duplicates : Nat
  parse_errors : Nat
  empty_lines : Nat
deriving DecidableEq

/-- One raw input line together with the outcome of `json::parse` on it
(`none` = parse threw; the engine treats the parser as a black box). -/
structure Line where
  raw : List Nat
  parsed : Option Record
deriving DecidableEq

/-- Loop state of the dedup engine: counters, the `seen_keys` set
(kept as a list that is, by construction, duplicate-free), and the bytes
written so far to the output stream. -/
structure EngineState where
  stats : Stats
  seen : List (List Nat)
  outBytes : List Nat
deriving DecidableEq

/-- State before the first line: zeroed counters, empty set, empty file. -/
def initState : EngineState :=
  { stats := { total := 0, parsed := 0, written := 0, duplicates := 0,
               parse_errors := 0, empty_lines := 0 },
    seen := [], outBytes := [] }

/-- One iteration of the `while (std::getline(...))` loop
(gdelt_dedup.cpp:142-172, jsonl_dedup.cpp:145-175). -/
def step (st : EngineState) (l : Line) : EngineState :=
  let tot := st.stats.total + 1
  if l.raw = [] then
    { st with stats :=
        { st.stats with
          total := tot
          empty_lines := st.stats.empty_lines + 1 } }
  else
    match l.parsed with
    | none =>
      { st with stats :=
          { st.stats with
            total := tot
            parse_errors := st.stats.parse_errors + 1 } }
    | some r =>
      let key := keyFor r tot
      if key ∈ st.seen then
        { st with stats :=
            { st.stats with
              total := tot
              parsed := st.stats.parsed + 1
              duplicates := st.stats.duplicates + 1 } }
      else
        { stats :=
            { st.stats with
              total := tot
              parsed := st.stats.parsed + 1
              written := st.stats.written + 1 }
          seen := key :: st.seen
          outBytes := st.outBytes ++ l.raw ++ [10] }

/-- The whole per-stream loop: fold `step` over the input lines. -/
def run (ls : List Line) : EngineState := ls.foldl step initState

/-- Concatenation of kept lines as they appear in the output file:
each line's bytes followed by one newline (`out << line << '\n'`). -/
def catLines (ks : List (List Nat)) : List Nat :=
  ks.foldr (fun k acc => k ++ [10] ++ acc) []

/-! ### Unfolding lemmas for the key deriver -/

/-- Rule 1, short-text branch: non-empty normalized text shorter than 80
bytes plus a non-empty normalized URL. -/
lemma build_key_text_url (r : Record) (ht : text_norm_of r ≠ [])
    (hlen : (text_norm_of r).length < 80) (hu : url_norm_of r ≠ []) :
    build_key r = text_norm_of r ++ bytes "|url|" ++ url_norm_of r := by
  unfold build_key
  rw [if_pos ht, if_pos ⟨hlen, hu⟩]

/-- Rule 1, plain branch: non-empty normalized text, and the short-text
condition fails (text long, or no URL). -/
lemma build_key_text_plain (r : Record) (ht : text_norm_of r ≠ [])
    (hc : ¬((text_norm_of r).length < 80 ∧ url_norm_of r ≠ [])) :
    build_key r = text_norm_of r := by
  unfold build_key
  rw [if_pos ht, if_neg hc]

/-- Rules 4/5: when text, title and url all normalize to empty, the key
comes from the `id` field (or is empty). -/
lemma build_key_of_empty_norms (r : Record) (ht : text_norm_of r = [])
    (hti : title_norm_of r = []) (hu : url_norm_of r = []) :
    build_key r = (match r.id with
                   | some s => bytes "id|" ++ s
                   | none => []) := by
  unfold build_key
  simp [ht, hti, hu]

/-- A record with all four fields absent derives the empty key. -/
lemma build_key_all_none (r : Record) (ht : r.text = none)
    (hti : r.title = none) (hu : r.url = none) (hid : r.id = none) :
    build_key r = [] := by
  rw [build_key_of_empty_norms]
  · rw [hid]
  · unfold text_norm_of
    rw [ht]
  · unfold title_norm_of
    rw [hti]
  · unfold url_norm_of
    rw [hu]

/-! ### Unfolding lemmas for one engine step -/

lemma step_empty_line (st : EngineState) (l : Line) (h : l.raw = []) :
    step st l =
      { st with stats :=
          { st.stats with
            total := st.stats.total + 1
            empty_lines := st.stats.empty_lines + 1 } } := by
  simp only [step]
  rw [if_pos h]

lemma step_malformed (st : EngineState) (l : Line) (h : l.raw ≠ [])
    (hp : l.parsed = none) :
    step st l =
      { st with stats :=
          { st.stats with
            total := st.stats.total + 1
            parse_errors := st.stats.parse_errors + 1 } } := by
  simp only [step]
  rw [if_neg h, hp]

lemma step_dup (st : EngineState) (l : Line) (r : Record) (h : l.raw ≠ [])
    (hp : l.parsed = some r) (hk : keyFor r (st.stats.total + 1) ∈ st.seen) :
    step st l =
      { st with stats :=
          { st.stats with
            total := st.stats.total + 1
            parsed := st.stats.parsed + 1
            duplicates := st.stats.duplicates + 1 } } := by
  simp only [step]
  rw [if_neg h, hp]
  simp only []
  rw [if_pos hk]

lemma step_write (st : EngineState) (l : Line) (r : Record) (h : l.raw ≠ [])
    (hp : l.parsed = some r) (hk : keyFor r (st.stats.total + 1) ∉ st.seen) :
    step st l =
      { stats :=
          { st.stats with
            total := st.stats.total + 1
            parsed := st.stats.parsed + 1
            written := st.stats.written + 1 }
        seen := keyFor r (st.stats.total + 1) :: st.seen
        outBytes := st.outBytes ++ l.raw ++ [10] } := by
  simp only [step]
  rw [if_neg h, hp]
  simp only []
  rw [if_neg hk]

/-! ### Counter and set invariants of the engine loop -/

/-- The two counter identities the spec states for `Stats`. -/
def statsInv (s : Stats) : Prop :=
  s.total = s.parsed + s.parse_errors + s.empty_lines ∧
  s.parsed = s.written + s.duplicates

lemma step_statsInv (st : EngineState) (l : Line)
    (h : statsInv st.stats) : statsInv (step st l).stats := by
  unfold statsInv at h ⊢
  simp only [step]
  split
  · simp only []
    omega
  · split
    · simp only []
      omega
    · split
      · simp only []
        omega
      · simp only []
        omega

lemma foldl_statsInv (ls : List Line) :
    ∀ st : EngineState, statsInv st.stats →
      statsInv (List.foldl step st ls).stats := by
  induction ls with
  | nil => intro st h; exact h
  | cons l rest ih =>
    intro st h
    exact ih (step st l) (step_statsInv st l h)

/-- Every line either leaves `seen`, `written` and the output unchanged,
or inserts one fresh key, bumps `written` by one, and appends exactly
`raw ++ '\n'` to the output. -/
lemma step_seen_cases (st : EngineState) (l : Line) :
    ((step st l).seen = st.seen ∧
     (step st l).stats.written = st.stats.written ∧
     (step st l).outBytes = st.outBytes) ∨
    (∃ k, k ∉ st.seen ∧ (step st l).seen = k :: st.seen ∧
      (step st l).stats.written = st.stats.written + 1 ∧
      (step st l).outBytes = st.outBytes ++ l.raw ++ [10]) := by
  by_cases h : l.raw = []
  · left
    rw [step_empty_line st l h]
    exact ⟨rfl, rfl, rfl⟩
  · cases hp : l.parsed with
    | none =>
      left
      rw [step_malformed st l h hp]
      exact ⟨rfl, rfl, rfl⟩
    | some r =>
      by_cases hk : keyFor r (st.stats.total + 1) ∈ st.seen
      · left
        rw [step_dup st l r h hp hk]
        exact ⟨rfl, rfl, rfl⟩
      · right
        exact ⟨keyFor r (st.stats.total + 1), hk,
          by rw [step_write st l r h hp hk],
          by rw [step_write st l r h hp hk],
          by rw [step_write st l r h hp hk]⟩

lemma step_total (st : EngineState) (l : Line) :
    (step st l).stats.total = st.stats.total + 1 := by
  simp only [step]
  split
  · rfl
  · split
    · rfl
    · split <;> rfl

lemma foldl_total (ls : List Line) :
    ∀ st : EngineState,
      (List.foldl step st ls).stats.total = st.stats.total + ls.length := by
  induction ls with
  | nil => intro st; rfl
  | cons l rest ih =>
    intro st
    rw [List.foldl_cons, ih (step st l), step_total]
    simp only [List.length_cons]
    omega

lemma foldl_seen_inv (ls : List Line) :
    ∀ st : EngineState,
      st.seen.Nodup → st.seen.length = st.stats.written →
      (List.foldl step st ls).seen.Nodup ∧
        (List.foldl step st ls).seen.length =
          (List.foldl step st ls).stats.written := by
  induction ls with
  | nil => intro st h1 h2; exact ⟨h1, h2⟩
  | cons l rest ih =>
    intro st h1 h2
    rcases step_seen_cases st l with ⟨hs, hw, _⟩ | ⟨k, hk, hs, hw, _⟩
    · exact ih (step st l) (hs ▸ h1) (by rw [hs, hw, h2])
    · refine ih (step st l) ?_ ?_
      · rw [hs]
        exact List.nodup_cons.mpr ⟨hk, h1⟩
      · rw [hs, hw, List.length_cons, h2]

/-- Claim C1: for every run of the dedup engine over any finite input
stream — hence in particular after processing every prefix of a stream,
since a prefix is itself a finite stream fed through the same fold — the
final statistics satisfy `total = parsed + parse_errors + empty_lines`
and `parsed = written + duplicates`. -/
theorem claim_c1_stats_invariant (ls : List Line) :
    (run ls).stats.total =
      (run ls).stats.parsed + (run ls).stats.parse_errors +
        (run ls).stats.empty_lines ∧
    (run ls).stats.parsed =
      (run ls).stats.written + (run ls).stats.duplicates := by
  have h := foldl_statsInv ls initState ⟨rfl, rfl⟩
  exact h

/-- Claim C10: after the engine processes any stream (so any prefix of a
larger stream), the observed-key list is duplicate-free and its length —
the cardinality of the observed-key set — equals the `written` counter;
moreover a single step never removes a key, and the growth of the key
set equals the growth of `written` (so an insertion that grows the set
bumps `written` by exactly one, and a step that does not grow it leaves
`written` unchanged). -/
theorem claim_c10_seen_card_written (ls : List Line) (st : EngineState)
    (l : Line) :
    ((run ls).seen.Nodup ∧
      (run ls).seen.length = (run ls).stats.written) ∧
    st.seen ⊆ (step st l).seen ∧
    (step st l).seen.length + st.stats.written =
      st.seen.length + (step st l).stats.written := by
  refine ⟨foldl_seen_inv ls initState List.nodup_nil rfl, ?_, ?_⟩
  · rcases step_seen_cases st l with ⟨hs, _, _⟩ | ⟨k, _, hs, _, _⟩
    · rw [hs]
      exact fun a ha => ha
    · rw [hs]
      exact List.subset_cons_self k st.seen
  · rcases step_seen_cases st l with ⟨hs, hw, _⟩ | ⟨k, _, hs, hw, _⟩
    · rw [hs, hw]
    · rw [hs, hw, List.length_cons]
      omega

lemma foldl_kept_lines (ls : List Line) :
    ∀ st : EngineState, ∃ kept : List (List Nat),
      List.Sublist kept (ls.map Line.raw) ∧
      (List.foldl step st ls).outBytes = st.outBytes ++ catLines kept ∧
      (List.foldl step st ls).stats.written =
        st.stats.written + kept.length := by
  induction ls with
  | nil =>
    intro st
    exact ⟨[], List.nil_sublist _, by simp [catLines], rfl⟩
  | cons l rest ih =>
    intro st
    rcases ih (step st l) with ⟨kept, hsub, hout, hw⟩
    rcases step_seen_cases st l with ⟨_, hw0, ho0⟩ | ⟨k, _, _, hw0, ho0⟩
    · refine ⟨kept, ?_, ?_, ?_⟩
      · exact List.Sublist.cons l.raw hsub
      · rw [List.foldl_cons] at *
        rw [hout, ho0]
      · rw [List.foldl_cons] at *
        rw [hw, hw0]
    · refine ⟨l.raw :: kept, ?_, ?_, ?_⟩
      · exact List.Sublist.cons₂ l.raw hsub
      · rw [List.foldl_cons] at *
        rw [hout, ho0]
        simp [catLines, List.append_assoc]
      · rw [List.foldl_cons] at *
        rw [hw, hw0, List.length_cons]
        omega

/-- Claim C4: the engine's kept-line sequence is a subsequence of the
input lines in their original relative order, and the output file is
exactly those kept lines, each emitted byte-identical to its source line
followed by one newline byte; the number of kept lines is the `written`
counter. -/
theorem claim_c4_output_subsequence (ls : List Line) :
    ∃ kept : List (List Nat),
      List.Sublist kept (ls.map Line.raw) ∧
      (run ls).outBytes = catLines kept ∧
      (run ls).stats.written = kept.length := by
  rcases foldl_kept_lines ls initState with ⟨kept, hsub, hout, hw⟩
  refine ⟨kept, hsub, ?_, ?_⟩
  · rw [run, hout]
    simp [initState]
  · rw [run, hw]
    simp [initState]

/-! ### Decimal rendering is injective (distinct line numbers give
distinct fallback keys) -/

lemma decAux_eq_digits :
    ∀ f n : Nat, n ≤ f →
      decAux f n = ((Nat.digits 10 n).map (fun d => d + 48)).reverse := by
  intro f
  induction f with
  | zero =>
    intro n hn
    interval_cases n
    simp [decAux]
  | succ f ih =>
    intro n hn
    cases n with
    | zero => simp [decAux]
    | succ m =>
      have hdiv : (m + 1) / 10 ≤ f := by
        have := Nat.div_lt_self (Nat.succ_pos m) (by norm_num : 1 < 10)
        omega
      rw [show decAux (f + 1) (m + 1) =
            decAux f ((m + 1) / 10) ++ [(m + 1) % 10 + 48] from rfl,
          ih _ hdiv,
          Nat.digits_def' (by norm_num : 1 < 10) (Nat.succ_pos m)]
      simp

lemma natDec_inj (m n : Nat) (h : natDec m = natDec n) : m = n := by
  have key : ∀ k : Nat, k ≠ 0 →
      natDec k = ((Nat.digits 10 k).map (fun d => d + 48)).reverse := by
    intro k hk
    unfold natDec
    rw [if_neg hk]
    exact decAux_eq_digits k k le_rfl
  have digits_ne : ∀ k : Nat, k ≠ 0 →
      ((Nat.digits 10 k).map (fun d => d + 48)).reverse ≠ [48] := by
    intro k hk hcontra
    have h1 : (Nat.digits 10 k).map (fun d => d + 48) = [48] := by
      have := congrArg List.reverse hcontra
      simpa using this
    have h2 : Nat.digits 10 k = [0] := by
      cases hd : Nat.digits 10 k with
      | nil => rw [hd] at h1; simp at h1
      | cons a tl =>
        rw [hd] at h1
        simp only [List.map_cons] at h1
        cases tl with
        | nil =>
          simp only [List.map_nil] at h1
          have : a + 48 = 48 := (List.cons.injEq _ _ _ _).mp h1 |>.1
          have : a = 0 := by omega
          simp [this]
        | cons b tl2 => simp at h1
    have := Nat.ofDigits_digits 10 k
    rw [h2] at this
    simp [Nat.ofDigits] at this
    exact hk this.symm
  have h0 : natDec 0 = [48] := by
    unfold natDec
    rw [if_pos rfl]
  by_cases hm : m = 0 <;> by_cases hn : n = 0
  · rw [hm, hn]
  · exfalso
    rw [hm, h0, key n hn] at h
    exact digits_ne n hn h.symm
  · exfalso
    rw [hn, h0, key m hm] at h
    exact digits_ne m hm h
  · rw [key m hm, key n hn] at h
    have h1 := List.reverse_injective h
    have hinj : Function.Injective (fun d : Nat => d + 48) := by
      intro a b hab
      simp only [] at hab
      omega
    have h2 := List.map_injective_iff.mpr hinj h1
    have := congrArg (Nat.ofDigits 10) h2
    rwa [Nat.ofDigits_digits, Nat.ofDigits_digits] at this

lemma lineKey_inj (n1 n2 : Nat) (h : n1 ≠ n2) :
    bytes "line|" ++ natDec n1 ≠ bytes "line|" ++ natDec n2 := by
  intro hcontra
  exact h (natDec_inj n1 n2 (List.append_cancel_left hcontra))

lemma keyFor_fallback (r : Record) (n : Nat) (h : build_key r = []) :
    keyFor r n = bytes "line|" ++ natDec n := by
  unfold keyFor
  rw [if_pos h]

lemma keyFor_key (r : Record) (n : Nat) (h : build_key r ≠ []) :
    keyFor r n = build_key r := by
  unfold keyFor
  rw [if_neg h]

/-- Running the engine on exactly two parsed records whose derived keys
differ: both are kept. -/
lemma run_two_distinct (raw1 raw2 : List Nat) (r1 r2 : Record)
    (hr1 : raw1 ≠ []) (hr2 : raw2 ≠ [])
    (hne : keyFor r2 2 ≠ keyFor r1 1) :
    run [Line.mk raw1 (some r1), Line.mk raw2 (some r2)] =
      { stats := { total := 2, parsed := 2, written := 2, duplicates := 0,
                   parse_errors := 0, empty_lines := 0 }
        seen := [keyFor r2 2, keyFor r1 1]
        outBytes := raw1 ++ [10] ++ raw2 ++ [10] } := by
  have hk1 : keyFor r1 (initState.stats.total + 1) ∉ initState.seen := by
    simp [initState]
  have e1 := step_write initState (Line.mk raw1 (some r1)) r1 hr1 rfl hk1
  have hA : step initState (Line.mk raw1 (some r1)) =
      { stats := { total := 1, parsed := 1, written := 1, duplicates := 0,
                   parse_errors := 0, empty_lines := 0 }
        seen := [keyFor r1 1]
        outBytes := raw1 ++ [10] } := by
    rw [e1]
    rfl
  have hrun : run [Line.mk raw1 (some r1), Line.mk raw2 (some r2)] =
      step (step initState (Line.mk raw1 (some r1)))
        (Line.mk raw2 (some r2)) := rfl
  rw [hrun, hA]
  have hk2 : keyFor r2
      (({ stats := { total := 1, parsed := 1, written := 1, duplicates := 0,
                     parse_errors := 0, empty_lines := 0 }
          seen := [keyFor r1 1]
          outBytes := raw1 ++ [10] } : EngineState).stats.total + 1) ∉
      ({ stats := { total := 1, parsed := 1, written := 1, duplicates := 0,
                    parse_errors := 0, empty_lines := 0 }
         seen := [keyFor r1 1]
         outBytes := raw1 ++ [10] } : EngineState).seen := by
    simp only [List.mem_singleton]
    exact hne
  rw [step_write _ (Line.mk raw2 (some r2)) r2 hr2 rfl hk2]

/-- Running the engine on exactly two parsed records whose derived keys
coincide: the second is dropped as a duplicate. -/
lemma run_two_equal (raw1 raw2 : List Nat) (r1 r2 : Record)
    (hr1 : raw1 ≠ []) (hr2 : raw2 ≠ [])
    (heq : keyFor r2 2 = keyFor r1 1) :
    run [Line.mk raw1 (some r1), Line.mk raw2 (some r2)] =
      { stats := { total := 2, parsed := 2, written := 1, duplicates := 1,
                   parse_errors := 0, empty_lines := 0 }
        seen := [keyFor r1 1]
        outBytes := raw1 ++ [10] } := by
  have hk1 : keyFor r1 (initState.stats.total + 1) ∉ initState.seen := by
    simp [initState]
  have e1 := step_write initState (Line.mk raw1 (some r1)) r1 hr1 rfl hk1
  have hA : step initState (Line.mk raw1 (some r1)) =
      { stats := { total := 1, parsed := 1, written := 1, duplicates := 0,
                   parse_errors := 0, empty_lines := 0 }
        seen := [keyFor r1 1]
        outBytes := raw1 ++ [10] } := by
    rw [e1]
    rfl
  have hrun : run [Line.mk raw1 (some r1), Line.mk raw2 (some r2)] =
      step (step initState (Line.mk raw1 (some r1)))
        (Line.mk raw2 (some r2)) := rfl
  rw [hrun, hA]
  have hk2 : keyFor r2
      (({ stats := { total := 1, parsed := 1, written := 1, duplicates := 0,
                     parse_errors := 0, empty_lines := 0 }
          seen := [keyFor r1 1]
          outBytes := raw1 ++ [10] } : EngineState).stats.total + 1) ∈
      ({ stats := { total := 1, parsed := 1, written := 1, duplicates := 0,
                    parse_errors := 0, empty_lines := 0 }
         seen := [keyFor r1 1]
         outBytes := raw1 ++ [10] } : EngineState).seen := by
    simp only [List.mem_singleton]
    exact heq
  rw [step_dup _ (Line.mk raw2 (some r2)) r2 hr2 rfl hk2]

/-- Claim C5: two parsed records that lack all of `text`, `title`, `url`
and `id` receive distinct positional fallback keys from their distinct
1-based line numbers, and when the engine processes two such records in
one stream, neither is classified a duplicate of the other: both are
kept. -/
theorem claim_c5_fallback_uniqueness (r1 r2 : Record) (n1 n2 : Nat)
    (raw1 raw2 : List Nat)
    (h1 : r1.text = none) (h2 : r1.title = none) (h3 : r1.url = none)
    (h4 : r1.id = none)
    (h5 : r2.text = none) (h6 : r2.title = none) (h7 : r2.url = none)
    (h8 : r2.id = none)
    (hn : n1 ≠ n2) (hr1 : raw1 ≠ []) (hr2 : raw2 ≠ []) :
    keyFor r1 n1 ≠ keyFor r2 n2 ∧
    (run [Line.mk raw1 (some r1), Line.mk raw2 (some r2)]).stats.duplicates
      = 0 ∧
    (run [Line.mk raw1 (some r1), Line.mk raw2 (some r2)]).stats.written
      = 2 := by
  have hb1 := build_key_all_none r1 h1 h2 h3 h4
  have hb2 := build_key_all_none r2 h5 h6 h7 h8
  refine ⟨?_, ?_, ?_⟩
  · rw [keyFor_fallback r1 n1 hb1, keyFor_fallback r2 n2 hb2]
    exact lineKey_inj n1 n2 hn
  · have hne : keyFor r2 2 ≠ keyFor r1 1 := by
      rw [keyFor_fallback r2 2 hb2, keyFor_fallback r1 1 hb1]
      exact lineKey_inj 2 1 (by omega)
    rw [run_two_distinct raw1 raw2 r1 r2 hr1 hr2 hne]
  · have hne : keyFor r2 2 ≠ keyFor r1 1 := by
      rw [keyFor_fallback r2 2 hb2, keyFor_fallback r1 1 hb1]
      exact lineKey_inj 2 1 (by omega)
    rw [run_two_distinct raw1 raw2 r1 r2 hr1 hr2 hne]

/-- Witness for C5 at a concrete input: two entirely field-less records
at lines 1 and 2 get different keys and are both written. -/
theorem claim_c5_witness :
    keyFor (Record.mk none none none none) 1 ≠
      keyFor (Record.mk none none none none) 2 ∧
    (run [Line.mk (bytes "a") (some (Record.mk none none none none)),
          Line.mk (bytes "b")
            (some (Record.mk none none none none))]).stats.duplicates = 0 ∧
    (run [Line.mk (bytes "a") (some (Record.mk none none none none)),
          Line.mk (bytes "b")
            (some (Record.mk none none none none))]).stats.written = 2 :=
  claim_c5_fallback_uniqueness (Record.mk none none none none)
    (Record.mk none none none none) 1 2 (bytes "a") (bytes "b")
    rfl rfl rfl rfl rfl rfl rfl rfl (by omega) (by decide) (by decide)

/-- Claim C2, amended: when text, title and url all normalize to empty,
a record whose `id` is present as a string — whether empty or not —
derives the key `"id|" + id` verbatim; the positional fallback
`"line|" + line_number` is substituted exactly when `id` is absent or
not a string (the claim's assertion that an empty-string `id` also
falls back to the positional key is refuted by
`claim_c2_counterexample`). -/
theorem claim_c2_id_and_fallback (r r0 : Record) (s : List Nat) (n : Nat)
    (ht : text_norm_of r = []) (hti : title_norm_of r = [])
    (hu : url_norm_of r = []) (hid : r.id = some s)
    (ht0 : text_norm_of r0 = []) (hti0 : title_norm_of r0 = [])
    (hu0 : url_norm_of r0 = []) (hid0 : r0.id = none) :
    build_key r = bytes "id|" ++ s ∧
    build_key r0 = [] ∧
    keyFor r0 n = bytes "line|" ++ natDec n := by
  have h1 := build_key_of_empty_norms r ht hti hu
  rw [hid] at h1
  have h2 := build_key_of_empty_norms r0 ht0 hti0 hu0
  rw [hid0] at h2
  exact ⟨h1, h2, keyFor_fallback r0 n h2⟩

/-- Counterexample to claim C2 as stated: a record whose `id` field is
present as the EMPTY string does not make key derivation signal
"no key" — `build_key` returns the non-empty string `"id|"`, so the
engine does not substitute the positional fallback for it. -/
theorem claim_c2_counterexample :
    build_key (Record.mk none none none (some [])) = bytes "id|" ∧
    build_key (Record.mk none none none (some [])) ≠ [] ∧
    keyFor (Record.mk none none none (some [])) 1 = bytes "id|" := by
  exact ⟨by decide, by decide, by decide⟩

/-- Witness for C2 at a concrete input: a record whose only field is
`id = "x"` keys as `"id|x"`; a record with no fields keys empty and gets
the `"line|1"` fallback. -/
theorem claim_c2_witness :
    build_key (Record.mk none none none (some (bytes "x"))) =
      bytes "id|" ++ bytes "x" ∧
    build_key (Record.mk none none none none) = [] ∧
    keyFor (Record.mk none none none none) 1 =
      bytes "line|" ++ natDec 1 :=
  claim_c2_id_and_fallback (Record.mk none none none (some (bytes "x")))
    (Record.mk none none none none) (bytes "x") 1
    rfl rfl rfl rfl rfl rfl rfl rfl

/-- Claim C9: key derivation is not injective across its priority rules.
The record whose only field is `text = "id|x"` and the record whose only
field is `id = "x"` have different field shapes yet both derive the key
`"id|x"`, and when the engine sees them in one stream the second is
classified a duplicate of the first (one written, one duplicate). -/
theorem claim_c9_key_collision_across_rules :
    Record.mk (some (bytes "id|x")) none none none ≠
      Record.mk none none none (some (bytes "x")) ∧
    build_key (Record.mk (some (bytes "id|x")) none none none) =
      bytes "id|x" ∧
    build_key (Record.mk none none none (some (bytes "x"))) =
      bytes "id|x" ∧
    (run [Line.mk (bytes "a")
            (some (Record.mk (some (bytes "id|x")) none none none)),
          Line.mk (bytes "b")
            (some (Record.mk none none none
              (some (bytes "x"))))]).stats.duplicates = 1 ∧
    (run [Line.mk (bytes "a")
            (some (Record.mk (some (bytes "id|x")) none none none)),
          Line.mk (bytes "b")
            (some (Record.mk none none none
              (some (bytes "x"))))]).stats.written = 1 := by
  refine ⟨by decide, by decide, by decide, by decide, by decide⟩

/-- Claim C3: records `r1, r2` share identical non-empty normalized text
shorter than 80 bytes and carry different non-empty normalized URLs:
their keys differ and the engine keeps both.  Records `q1, q2` share
identical normalized text of length at least 80 and carry different
URLs: the URL is ignored, the keys coincide, and the engine keeps only
the first. -/
theorem claim_c3_short_long_text (r1 r2 q1 q2 : Record)
    (raw1 raw2 : List Nat) (t u1 u2 tL v1 v2 : List Nat)
    (ht1 : text_norm_of r1 = t) (ht2 : text_norm_of r2 = t)
    (htne : t ≠ []) (hlen : t.length < 80)
    (hu1 : url_norm_of r1 = u1) (hu2 : url_norm_of r2 = u2)
    (hu1n : u1 ≠ []) (hu2n : u2 ≠ []) (hune : u1 ≠ u2)
    (hq1 : text_norm_of q1 = tL) (hq2 : text_norm_of q2 = tL)
    (htLne : tL ≠ []) (hlenL : 80 ≤ tL.length)
    (_hv1 : url_norm_of q1 = v1) (_hv2 : url_norm_of q2 = v2)
    (_hvne : v1 ≠ v2)
    (hr1 : raw1 ≠ []) (hr2 : raw2 ≠ []) :
    build_key r1 ≠ build_key r2 ∧
    (run [Line.mk raw1 (some r1), Line.mk raw2 (some r2)]).stats.written
      = 2 ∧
    (run [Line.mk raw1 (some r1), Line.mk raw2 (some r2)]).stats.duplicates
      = 0 ∧
    (run [Line.mk raw1 (some r1), Line.mk raw2 (some r2)]).outBytes
      = raw1 ++ [10] ++ raw2 ++ [10] ∧
    build_key q1 = build_key q2 ∧
    (run [Line.mk raw1 (some q1), Line.mk raw2 (some q2)]).stats.written
      = 1 ∧
    (run [Line.mk raw1 (some q1), Line.mk raw2 (some q2)]).stats.duplicates
      = 1 ∧
    (run [Line.mk raw1 (some q1), Line.mk raw2 (some q2)]).outBytes
      = raw1 ++ [10] := by
  have hb1 : build_key r1 = t ++ bytes "|url|" ++ u1 := by
    have h := build_key_text_url r1 (by rw [ht1]; exact htne)
      (by rw [ht1]; exact hlen) (by rw [hu1]; exact hu1n)
    rw [ht1, hu1] at h
    exact h
  have hb2 : build_key r2 = t ++ bytes "|url|" ++ u2 := by
    have h := build_key_text_url r2 (by rw [ht2]; exact htne)
      (by rw [ht2]; exact hlen) (by rw [hu2]; exact hu2n)
    rw [ht2, hu2] at h
    exact h
  have hbne1 : build_key r1 ≠ [] := by
    rw [hb1]
    exact List.append_ne_nil_of_left_ne_nil
      (List.append_ne_nil_of_left_ne_nil htne _) _
  have hbne2 : build_key r2 ≠ [] := by
    rw [hb2]
    exact List.append_ne_nil_of_left_ne_nil
      (List.append_ne_nil_of_left_ne_nil htne _) _
  have hkne : build_key r1 ≠ build_key r2 := by
    rw [hb1, hb2]
    intro hcontra
    exact hune (List.append_cancel_left hcontra)
  have hne21 : keyFor r2 2 ≠ keyFor r1 1 := by
    rw [keyFor_key r2 2 hbne2, keyFor_key r1 1 hbne1]
    exact fun hc => hkne hc.symm
  have hbq1 : build_key q1 = tL := by
    have h := build_key_text_plain q1 (by rw [hq1]; exact htLne)
      (by rw [hq1]; exact fun hc => by omega)
    rw [hq1] at h
    exact h
  have hbq2 : build_key q2 = tL := by
    have h := build_key_text_plain q2 (by rw [hq2]; exact htLne)
      (by rw [hq2]; exact fun hc => by omega)
    rw [hq2] at h
    exact h
  have hbqne1 : build_key q1 ≠ [] := by rw [hbq1]; exact htLne
  have hbqne2 : build_key q2 ≠ [] := by rw [hbq2]; exact htLne
  have heq : keyFor q2 2 = keyFor q1 1 := by
    rw [keyFor_key q2 2 hbqne2, keyFor_key q1 1 hbqne1, hbq1, hbq2]
  refine ⟨hkne, ?_, ?_, ?_, ?_, ?_, ?_, ?_⟩
  · rw [run_two_distinct raw1 raw2 r1 r2 hr1 hr2 hne21]
  · rw [run_two_distinct raw1 raw2 r1 r2 hr1 hr2 hne21]
  · rw [run_two_distinct raw1 raw2 r1 r2 hr1 hr2 hne21]
  · rw [hbq1, hbq2]
  · rw [run_two_equal raw1 raw2 q1 q2 hr1 hr2 heq]
  · rw [run_two_equal raw1 raw2 q1 q2 hr1 hr2 heq]
  · rw [run_two_equal raw1 raw2 q1 q2 hr1 hr2 heq]

/-- Witness for C3 at concrete inputs: short text "abc" with URLs "u"
and "v" keeps both records; an 80-byte text with the same two URLs
collapses to one kept record. -/
theorem claim_c3_witness :
    build_key (Record.mk (some (bytes "abc")) none (some (bytes "u")) none)
      ≠ build_key
        (Record.mk (some (bytes "abc")) none (some (bytes "v")) none) ∧
    (run [Line.mk (bytes "1")
            (some (Record.mk (some (bytes "abc")) none
              (some (bytes "u")) none)),
          Line.mk (bytes "2")
            (some (Record.mk (some (bytes "abc")) none
              (some (bytes "v")) none))]).stats.written = 2 ∧
    (run [Line.mk (bytes "1")
            (some (Record.mk (some (bytes "abc")) none
              (some (bytes "u")) none)),
          Line.mk (bytes "2")
            (some (Record.mk (some (bytes "abc")) none
              (some (bytes "v")) none))]).stats.duplicates = 0 ∧
    (run [Line.mk (bytes "1")
            (some (Record.mk (some (bytes "abc")) none
              (some (bytes "u")) none)),
          Line.mk (bytes "2")
            (some (Record.mk (some (bytes "abc")) none
              (some (bytes "v")) none))]).outBytes
      = bytes "1" ++ [10] ++ bytes "2" ++ [10] ∧
    build_key (Record.mk (some (List.replicate 80 97)) none
        (some (bytes "u")) none)
      = build_key (Record.mk (some (List.replicate 80 97)) none
        (some (bytes "v")) none) ∧
    (run [Line.mk (bytes "1")
            (some (Record.mk (some (List.replicate 80 97)) none
              (some (bytes "u")) none)),
          Line.mk (bytes "2")
            (some (Record.mk (some (List.replicate 80 97)) none
              (some (bytes "v")) none))]).stats.written = 1 ∧
    (run [Line.mk (bytes "1")
            (some (Record.mk (some (List.replicate 80 97)) none
              (some (bytes "u")) none)),
          Line.mk (bytes "2")
            (some (Record.mk (some (List.replicate 80 97)) none
              (some (bytes "v")) none))]).stats.duplicates = 1 ∧
    (run [Line.mk (bytes "1")
            (some (Record.mk (some (List.replicate 80 97)) none
              (some (bytes "u")) none)),
          Line.mk (bytes "2")
            (some (Record.mk (some (List.replicate 80 97)) none
              (some (bytes "v")) none))]).outBytes
      = bytes "1" ++ [10] :=
  claim_c3_short_long_text
    (Record.mk (some (bytes "abc")) none (some (bytes "u")) none)
    (Record.mk (some (bytes "abc")) none (some (bytes "v")) none)
    (Record.mk (some (List.replicate 80 97)) none (some (bytes "u")) none)
    (Record.mk (some (List.replicate 80 97)) none (some (bytes "v")) none)
    (bytes "1") (bytes "2")
    (bytes "abc") (bytes "u") (bytes "v")
    (List.replicate 80 97) (bytes "u") (bytes "v")
    (by decide) (by decide) (by decide) (by decide)
    (by decide) (by decide) (by decide) (by decide) (by decide)
    (by decide) (by decide) (by decide) (by decide)
    (by decide) (by decide) (by decide)
    (by decide) (by decide)

/-- Claim C8: a non-empty line whose parse fails bumps `parse_errors`
only (never `written`, `duplicates` or `empty_lines`), writes nothing,
and the engine continues: the state after the whole stream is the fold
of the remaining lines from the post-error state, and `total` counts
every line of the stream.  An empty line bumps `empty_lines` only — it
is neither a parse error nor a duplicate and writes nothing. -/
theorem claim_c8_malformed_and_empty (pre post : List Line) (l e : Line)
    (hr : l.raw ≠ []) (hp : l.parsed = none) (he : e.raw = []) :
    (step (run pre) l).stats.parse_errors =
      (run pre).stats.parse_errors + 1 ∧
    (step (run pre) l).outBytes = (run pre).outBytes ∧
    (step (run pre) l).stats.written = (run pre).stats.written ∧
    (step (run pre) l).stats.duplicates = (run pre).stats.duplicates ∧
    (step (run pre) l).stats.empty_lines = (run pre).stats.empty_lines ∧
    run (pre ++ l :: post) = List.foldl step (step (run pre) l) post ∧
    (run (pre ++ l :: post)).stats.total =
      pre.length + 1 + post.length ∧
    (step (run pre) e).stats.empty_lines =
      (run pre).stats.empty_lines + 1 ∧
    (step (run pre) e).stats.parse_errors = (run pre).stats.parse_errors ∧
    (step (run pre) e).stats.duplicates = (run pre).stats.duplicates ∧
    (step (run pre) e).stats.written = (run pre).stats.written ∧
    (step (run pre) e).outBytes = (run pre).outBytes := by
  have hm := step_malformed (run pre) l hr hp
  have hem := step_empty_line (run pre) e he
  have hcont : run (pre ++ l :: post) =
      List.foldl step (step (run pre) l) post := by
    rw [run, List.foldl_append, List.foldl_cons]
    rfl
  have htot : (run (pre ++ l :: post)).stats.total =
      pre.length + 1 + post.length := by
    have h := foldl_total (pre ++ l :: post) initState
    rw [run]
    rw [h]
    simp [initState]
    omega
  exact ⟨by rw [hm], by rw [hm], by rw [hm], by rw [hm], by rw [hm],
    hcont, htot,
    by rw [hem], by rw [hem], by rw [hem], by rw [hem], by rw [hem]⟩

/-- Witness for C8 at a concrete input: the malformed line `"x"` and an
empty line, each appended to the empty stream. -/
theorem claim_c8_witness :
    (step (run []) (Line.mk (bytes "x") none)).stats.parse_errors =
      (run []).stats.parse_errors + 1 ∧
    (step (run []) (Line.mk (bytes "x") none)).outBytes =
      (run []).outBytes ∧
    (step (run []) (Line.mk (bytes "x") none)).stats.written =
      (run []).stats.written ∧
    (step (run []) (Line.mk (bytes "x") none)).stats.duplicates =
      (run []).stats.duplicates ∧
    (step (run []) (Line.mk (bytes "x") none)).stats.empty_lines =
      (run []).stats.empty_lines ∧
    run ([] ++ Line.mk (bytes "x") none :: []) =
      List.foldl step (step (run []) (Line.mk (bytes "x") none)) [] ∧
    (run ([] ++ Line.mk (bytes "x") none :: [])).stats.total =
      List.length ([] : List Line) + 1 + List.length ([] : List Line) ∧
    (step (run []) (Line.mk [] none)).stats.empty_lines =
      (run []).stats.empty_lines + 1 ∧
    (step (run []) (Line.mk [] none)).stats.parse_errors =
      (run []).stats.parse_errors ∧
    (step (run []) (Line.mk [] none)).stats.duplicates =
      (run []).stats.duplicates ∧
    (step (run []) (Line.mk [] none)).stats.written =
      (run []).stats.written ∧
    (step (run []) (Line.mk [] none)).outBytes = (run []).outBytes :=
  claim_c8_malformed_and_empty [] [] (Line.mk (bytes "x") none)
    (Line.mk [] none) (by decide) rfl rfl

lemma dropLeading_cons (x a : Nat) (rest : List Nat) :
    dropLeading x (a :: rest) =
      if a = x then dropLeading x rest else a :: rest := rfl

lemma dropLeading_head_ne (x : Nat) :
    ∀ (l : List Nat) (c : Nat), (dropLeading x l).head? = some c → c ≠ x := by
  intro l
  induction l with
  | nil =>
    intro c hc
    simp [dropLeading] at hc
  | cons a rest ih =>
    intro c hc
    by_cases ha : a = x
    · rw [dropLeading_cons, if_pos ha] at hc
      exact ih c hc
    · rw [dropLeading_cons, if_neg ha] at hc
      simp only [List.head?_cons, Option.some.injEq] at hc
      exact hc ▸ ha

/-- Claim C7: URL normalization lowercases ASCII letters and strips all
trailing slashes repeatedly, so `"HTTP://X.com///"` becomes
`"http://x.com"`, and no normalized URL ends in `'/'` (byte 47). -/
theorem claim_c7_urlish (u : List Nat) (c : Nat) :
    normalize_urlish (bytes "HTTP://X.com///") = bytes "http://x.com" ∧
    ((normalize_urlish u).getLast? = some c → c ≠ 47) := by
  refine ⟨by decide, ?_⟩
  intro hc
  unfold normalize_urlish at hc
  rw [List.getLast?_reverse] at hc
  exact dropLeading_head_ne 47 _ c hc

/-- Witness for C7: `"x/"` normalizes to `"x"`, whose last byte 120 is
not a slash. -/
theorem claim_c7_witness :
    (normalize_urlish (bytes "x/")).getLast? = some 120 ∧
    (120 : Nat) ≠ 47 :=
  ⟨by decide, (claim_c7_urlish (bytes "x/") 120).2 (by decide)⟩

/-! ### Normalization is idempotent -/

lemma toLowerA_idem (c : Nat) : toLowerA (toLowerA c) = toLowerA c := by
  unfold toLowerA
  split_ifs <;> omega

lemma isSpace_toLowerA (c : Nat) : isSpace (toLowerA c) ↔ isSpace c := by
  unfold toLowerA isSpace
  split_ifs with h
  · constructor <;> intro h2 <;> omega
  · exact Iff.rfl

/-- A byte that normalization can emit: fixed by lowercasing, and a
space only if it is the literal `' '`. -/
def okChar (c : Nat) : Prop := toLowerA c = c ∧ (isSpace c → c = 32)

/-- No two adjacent `' '` bytes. -/
def noDbl (l : List Nat) : Prop :=
  List.Chain' (fun a b => ¬(a = 32 ∧ b = 32)) l

lemma normCore_cons (b : Bool) (a : Nat) (rest : List Nat) :
    normCore b (a :: rest) =
      if isSpace a then
        (if b then normCore true rest else 32 :: normCore true rest)
      else toLowerA a :: normCore false rest := rfl

lemma normCore_ok (s : List Nat) :
    ∀ (b : Bool), ∀ c ∈ normCore b s, okChar c := by
  induction s with
  | nil =>
    intro b c hc
    simp [normCore] at hc
  | cons a rest ih =>
    intro b c hc
    rw [normCore_cons] at hc
    by_cases hs : isSpace a
    · rw [if_pos hs] at hc
      cases b with
      | true =>
        rw [if_pos rfl] at hc
        exact ih true c hc
      | false =>
        rw [if_neg (by simp)] at hc
        rcases List.mem_cons.mp hc with h32 | hmem
        · subst h32
          exact ⟨by decide, fun _ => rfl⟩
        · exact ih true c hmem
    · rw [if_neg hs] at hc
      rcases List.mem_cons.mp hc with hl | hmem
      · subst hl
        exact ⟨toLowerA_idem a,
          fun hsp => absurd ((isSpace_toLowerA a).mp hsp) hs⟩
      · exact ih false c hmem

lemma normCore_true_head (s : List Nat) :
    ∀ c : Nat, (normCore true s).head? = some c → ¬ isSpace c := by
  induction s with
  | nil =>
    intro c hc
    simp [normCore] at hc
  | cons a rest ih =>
    intro c hc
    rw [normCore_cons] at hc
    by_cases hs : isSpace a
    · rw [if_pos hs, if_pos rfl] at hc
      exact ih c hc
    · rw [if_neg hs] at hc
      simp only [List.head?_cons, Option.some.injEq] at hc
      subst hc
      exact fun hsp => hs ((isSpace_toLowerA a).mp hsp)

lemma normCore_noDbl (s : List Nat) : ∀ b : Bool, noDbl (normCore b s) := by
  induction s with
  | nil =>
    intro b
    simp [normCore, noDbl]
  | cons a rest ih =>
    intro b
    rw [normCore_cons]
    by_cases hs : isSpace a
    · rw [if_pos hs]
      cases b with
      | true =>
        rw [if_pos rfl]
        exact ih true
      | false =>
        rw [if_neg (by simp)]
        unfold noDbl
        rw [List.chain'_cons']
        refine ⟨?_, ih true⟩
        intro h hh hcon
        have hns := normCore_true_head rest h (Option.mem_def.mp hh)
        exact hns (by rw [hcon.2]; decide)
    · rw [if_neg hs]
      unfold noDbl
      rw [List.chain'_cons']
      refine ⟨?_, ih false⟩
      intro h hh hcon
      have : isSpace (toLowerA a) := by rw [hcon.1]; decide
      exact hs ((isSpace_toLowerA a).mp this)

lemma normCore_fix (s : List Nat) (hok : ∀ c ∈ s, okChar c)
    (hnd : noDbl s) : normCore false s = s := by
  induction s with
  | nil => rfl
  | cons a rest ih =>
    by_cases hs : isSpace a
    · have ha32 : a = 32 := (hok a (List.mem_cons_self a rest)).2 hs
      subst ha32
      rw [normCore_cons, if_pos hs, if_neg (by simp)]
      congr 1
      cases rest with
      | nil => rfl
      | cons b rest2 =>
        have hb32 : ¬ b = 32 := by
          unfold noDbl at hnd
          rw [List.chain'_cons'] at hnd
          have hb := hnd.1 b (by simp)
          intro hcb
          exact hb ⟨rfl, hcb⟩
        have hbs : ¬ isSpace b := by
          intro hsp
          exact hb32 ((hok b (by simp)).2 hsp)
        have hrest : normCore false (b :: rest2) = b :: rest2 :=
          ih (fun c hc => hok c (List.mem_cons_of_mem _ hc))
            (List.Chain'.tail hnd)
        rw [normCore_cons, if_neg hbs] at hrest
        have htail := ((List.cons.injEq _ _ _ _).mp hrest).2
        rw [normCore_cons, if_neg hbs, (hok b (by simp)).1, htail]
    · rw [normCore_cons, if_neg hs, (hok a (List.mem_cons_self a rest)).1]
      congr 1
      exact ih (fun c hc => hok c (List.mem_cons_of_mem _ hc))
        (List.Chain'.tail hnd)

lemma dropLeading_eq_self (x : Nat) (l : List Nat)
    (h : ∀ c, l.head? = some c → c ≠ x) : dropLeading x l = l := by
  cases l with
  | nil => rfl
  | cons a rest =>
    rw [dropLeading_cons, if_neg]
    exact h a rfl

lemma dropLeading_mem (x : Nat) :
    ∀ (l : List Nat) (c : Nat), c ∈ dropLeading x l → c ∈ l := by
  intro l
  induction l with
  | nil =>
    intro c hc
    simp [dropLeading] at hc
  | cons a rest ih =>
    intro c hc
    by_cases ha : a = x
    · rw [dropLeading_cons, if_pos ha] at hc
      exact List.mem_cons_of_mem a (ih c hc)
    · rw [dropLeading_cons, if_neg ha] at hc
      exact hc

lemma dropLeading_noDbl (x : Nat) :
    ∀ l : List Nat, noDbl l → noDbl (dropLeading x l) := by
  intro l
  induction l with
  | nil =>
    intro h
    exact h
  | cons a rest ih =>
    intro hnd
    by_cases ha : a = x
    · rw [dropLeading_cons, if_pos ha]
      exact ih (List.Chain'.tail hnd)
    · rw [dropLeading_cons, if_neg ha]
      exact hnd

lemma noDbl_reverse (l : List Nat) (h : noDbl l) : noDbl l.reverse := by
  unfold noDbl at h ⊢
  rw [List.chain'_reverse]
  exact List.Chain'.imp (fun a b hab hc => hab ⟨hc.2, hc.1⟩) h

lemma dropLeading_getLast (x : Nat) :
    ∀ (l : List Nat) (c : Nat),
      (dropLeading x l).getLast? = some c → l.getLast? = some c := by
  intro l
  induction l with
  | nil =>
    intro c hc
    simp [dropLeading] at hc
  | cons a rest ih =>
    intro c hc
    by_cases ha : a = x
    · rw [dropLeading_cons, if_pos ha] at hc
      have h2 := ih c hc
      cases rest with
      | nil => simp at h2
      | cons b rest2 =>
        rw [List.getLast?_cons_cons]
        exact h2
    · rw [dropLeading_cons, if_neg ha] at hc
      exact hc

/-- Every output of `normalize_ascii_lower` is fully normalized: all
bytes lower-cased with spaces rendered as `' '`, no adjacent spaces, and
no leading or trailing space. -/
lemma normalized_props (s : List Nat) :
    (∀ c ∈ normalize_ascii_lower s, okChar c) ∧
    noDbl (normalize_ascii_lower s) ∧
    (∀ c, (normalize_ascii_lower s).head? = some c → c ≠ 32) ∧
    (∀ c, (normalize_ascii_lower s).getLast? = some c → c ≠ 32) := by
  unfold normalize_ascii_lower
  refine ⟨?_, ?_, ?_, ?_⟩
  · intro c hc
    rw [List.mem_reverse] at hc
    have h1 := dropLeading_mem 32 _ c hc
    rw [List.mem_reverse] at h1
    have h2 := dropLeading_mem 32 _ c h1
    exact normCore_ok s false c h2
  · exact noDbl_reverse _ (dropLeading_noDbl 32 _
      (noDbl_reverse _ (dropLeading_noDbl 32 _ (normCore_noDbl s false))))
  · intro c hc
    rw [List.head?_reverse] at hc
    have h1 := dropLeading_getLast 32 _ c hc
    rw [List.getLast?_reverse] at h1
    exact dropLeading_head_ne 32 _ c h1
  · intro c hc
    rw [List.getLast?_reverse] at hc
    exact dropLeading_head_ne 32 _ c hc

/-- A fully normalized byte string is a fixed point of
`normalize_ascii_lower`. -/
lemma normalize_fix (t : List Nat)
    (hok : ∀ c ∈ t, okChar c) (hnd : noDbl t)
    (hh : ∀ c, t.head? = some c → c ≠ 32)
    (hl : ∀ c, t.getLast? = some c → c ≠ 32) :
    normalize_ascii_lower t = t := by
  unfold normalize_ascii_lower
  rw [normCore_fix t hok hnd, dropLeading_eq_self 32 t hh,
    dropLeading_eq_self 32 t.reverse
      (fun c hc => hl c (by rwa [List.head?_reverse] at hc)),
    List.reverse_reverse]

/-- Claim C6: text/title normalization is idempotent — applying
`normalize_ascii_lower` (collapse every ASCII-whitespace run to one
space, lowercase ASCII letters, trim leading and trailing spaces,
non-ASCII bytes passed through) to its own output returns the output
unchanged, for every byte string. -/
theorem claim_c6_normalize_idempotent (s : List Nat) :
    normalize_ascii_lower (normalize_ascii_lower s) =
      normalize_ascii_lower s := by
  obtain ⟨hok, hnd, hh, hl⟩ := normalized_props s
  exact normalize_fix _ hok hnd hh hl
